import Mathlib

/-!
Shallow embedding of the luxfi/cache repository's eviction engines.

Modelled components:
* `LruCache` — the count-bounded LRU cache of src/lru/lru.go
  (map `elements` + `container/list` recency list, modelled as a single
  association list `order` with head = most-recently-used; the Go map is
  the set of keys of `order`, which in every reachable state are unique).
* `SizedCache` — the byte-bounded LRU cache of src/unnamed/part_002
  (first section).  The pluggable `sizeFn` is passed to the operations
  explicitly instead of being stored in the structure, so that states
  stay decidably comparable; it is fixed at construction in the Go code.
* `ByteShard` / `ByteCache` — the sharded byte cache (package bytecache,
  src/unnamed/part_002 third section).  The intrusive doubly linked list
  (`head`/`tail`, `prev`/`next`) is modelled by the order of the `items`
  list (head = front = MRU, last = tail = LRU); Go byte slices are
  `List Nat` whose elements are byte values, `nil` slices are `none` in
  an `Option`.  uint8 hash arithmetic carries an explicit `% 256`.
* `CbCache` — the eviction-callback LRU variant of src/lru/cache.go.
  Its engine lives in the external `container` package
  (`container.NewLRUCacheWithOnEvict`), which is not part of this
  repository's sources, so it is modelled from the spec (see its
  doc comment).  Operations return the list of callback invocations
  they perform, in order.
-/

namespace LuxCache

/-! ## List helpers: the Go map lookup and the linked-list node removal -/

/-- The Go `m[key]` map lookup over the recency list: the first (in every
reachable state, only) element satisfying `p`. -/
def lookupBy {α : Type} (p : α → Bool) : List α → Option α
  | [] => none
  | e :: t => if p e then some e else lookupBy p t

/-- The Go `list.Remove(elem)` of the element found by `lookupBy`: removes
the first element satisfying `p`. -/
def erasePBy {α : Type} (p : α → Bool) : List α → List α
  | [] => []
  | e :: t => if p e then t else e :: erasePBy p t

/-! ## Count-bounded LRU cache (src/lru/lru.go) -/

/-- State of `lru.Cache`: the configured `size` (entry-count budget) and the
recency list `order`, front = most-recently-used.  The Go `elements` map is
the association structure of `order` itself. -/
structure LruCache (K V : Type) where
  size : Int
  order : List (K × V)
  deriving DecidableEq, Repr

/-- `lru.NewCache`: a non-positive size is normalized to 1. -/
def lruNew (K V : Type) (size : Int) : LruCache K V :=
  { size := if size ≤ 0 then 1 else size, order := [] }

variable {K V : Type} [DecidableEq K]

/-- Predicate used to find the list element owned by key `k`
(the Go `c.elements[key]` lookup). -/
def keyIs (k : K) : K × V → Bool := fun e => decide (e.1 = k)

/-- `lru.Cache.Put`.  If the key exists, its element's value is replaced and
the element moves to the front; otherwise, if the list is at capacity the
back element is removed, and the new entry is pushed to the front. -/
def lruPut (c : LruCache K V) (k : K) (v : V) : LruCache K V :=
  match lookupBy (keyIs k) c.order with
  | some _ =>
      { c with order := (k, v) :: erasePBy (keyIs k) c.order }
  | none =>
      let order1 := if (c.order.length : Int) ≥ c.size then c.order.dropLast else c.order
      { c with order := (k, v) :: order1 }

/-- `lru.Cache.Get`: on a hit the element moves to the front and
`(value, true)` is returned; on a miss `(zero, false)`.  The pair
`(found-value?, new state)` models the Go return plus the mutation. -/
def lruGet (c : LruCache K V) (k : K) : Option V × LruCache K V :=
  match lookupBy (keyIs k) c.order with
  | some e => (some e.2, { c with order := e :: erasePBy (keyIs k) c.order })
  | none => (none, c)

/-- `lru.Cache.Evict`: removes the key's element if present. -/
def lruEvict (c : LruCache K V) (k : K) : LruCache K V :=
  match lookupBy (keyIs k) c.order with
  | some _ => { c with order := erasePBy (keyIs k) c.order }
  | none => c

/-- `lru.Cache.Flush`: fresh map, reinitialized list. -/
def lruFlush (c : LruCache K V) : LruCache K V :=
  { c with order := [] }

/-- `lru.Cache.Len`: the recency list's length. -/
def lruLen (c : LruCache K V) : Nat := c.order.length

/-- `lru.Cache.PortionFilled`: `float64(len) / float64(size)`, modelled as an
exact rational (the spec's claims about it are the exact values 0 and 1 and
the bounds, which the float computation also attains). -/
def lruPortionFilled (c : LruCache K V) : ℚ :=
  (c.order.length : ℚ) / (c.size : ℚ)

/-- Applying a sequence of `Put` calls in order. -/
def lruPuts (c : LruCache K V) (ops : List (K × V)) : LruCache K V :=
  ops.foldl (fun c p => lruPut c p.1 p.2) c

/-! ## Byte-bounded LRU cache (`SizedCache`, src/unnamed/part_002) -/

/-- A `sizedEntry`: key, value and the size recorded at insertion time. -/
structure SizedEntry (K V : Type) where
  key : K
  value : V
  size : Int
  deriving DecidableEq, Repr

/-- Predicate locating the entry owned by key `k` (the `c.items[key]` map
lookup of `SizedCache`). -/
def entryKeyIs (k : K) : SizedEntry K V → Bool := fun e => decide (e.key = k)

/-- State of `SizedCache`: byte budget `maxSize`, running `currentSize`,
and the recency list `items` (front = MRU, last = LRU tail).  The Go
`items` map is the association structure of the list. -/
structure SizedCache (K V : Type) where
  maxSize : Int
  currentSize : Int
  items : List (SizedEntry K V)
  deriving DecidableEq, Repr

/-- `NewSizedCache`: a non-positive max size is normalized to 1.  (The Go
constructor also substitutes a constant-1 sizing function for a nil one;
the sizing function is passed to each operation here.) -/
def sizedNew (K V : Type) (maxSize : Int) : SizedCache K V :=
  { maxSize := if maxSize ≤ 0 then 1 else maxSize, currentSize := 0, items := [] }

/-- Sum of the recorded sizes of a list of entries. -/
def sumSizes (items : List (SizedEntry K V)) : Int :=
  (items.map (·.size)).sum

/-- The eviction loop of `SizedCache.Put`, working on the reversed recency
list (LRU entry first, so removing the Go list's back = removing the head
here): while `currentSize` exceeds `maxSize - entrySize`, remove the LRU
entry, subtracting its size; stop when the list runs out (`back == nil`). -/
def sizedEvictRev (maxSize entrySize : Int) :
    Int → List (SizedEntry K V) → Int × List (SizedEntry K V)
  | cur, rev =>
    if cur > maxSize - entrySize then
      match rev with
      | [] => (cur, [])
      | e :: rest => sizedEvictRev maxSize entrySize (cur - e.size) rest
    else (cur, rev)

/-- The eviction loop of `SizedCache.Put` on the MRU-first recency list:
repeatedly removes the back (LRU tail) entry while over budget. -/
def sizedEvictLoop (maxSize entrySize : Int) (cur : Int) (items : List (SizedEntry K V)) :
    Int × List (SizedEntry K V) :=
  let r := sizedEvictRev maxSize entrySize cur items.reverse
  (r.1, r.2.reverse)

/-- `SizedCache.Put`.  Oversized entries (`entrySize > maxSize`) flush the
whole store (`flushLocked`).  Otherwise an existing entry for the key is
unlinked first (size subtracted), the eviction loop frees space, and the
new entry is pushed to the front. -/
def sizedPut (sizeFn : K → V → Int) (c : SizedCache K V) (k : K) (v : V) :
    SizedCache K V :=
  let entrySize := sizeFn k v
  if entrySize > c.maxSize then
    { c with items := [], currentSize := 0 }
  else
    let (cur1, items1) :=
      match lookupBy (entryKeyIs k) c.items with
      | some old => (c.currentSize - old.size, erasePBy (entryKeyIs k) c.items)
      | none => (c.currentSize, c.items)
    let (cur2, items2) := sizedEvictLoop c.maxSize entrySize cur1 items1
    { c with currentSize := cur2 + entrySize,
             items := ⟨k, v, entrySize⟩ :: items2 }

/-- `SizedCache.Get`: a hit moves the entry to the front. -/
def sizedGet (c : SizedCache K V) (k : K) : Option V × SizedCache K V :=
  match lookupBy (entryKeyIs k) c.items with
  | some e => (some e.value, { c with items := e :: erasePBy (entryKeyIs k) c.items })
  | none => (none, c)

/-- `SizedCache.Evict`: removes the key's entry, subtracting its size. -/
def sizedEvict (c : SizedCache K V) (k : K) : SizedCache K V :=
  match lookupBy (entryKeyIs k) c.items with
  | some e => { c with currentSize := c.currentSize - e.size,
                       items := erasePBy (entryKeyIs k) c.items }
  | none => c

/-- `SizedCache.Flush` / `flushLocked`: all entries removed, usage reset. -/
def sizedFlush (c : SizedCache K V) : SizedCache K V :=
  { c with items := [], currentSize := 0 }

/-- `SizedCache.Len`: the number of entries. -/
def sizedLen (c : SizedCache K V) : Nat := c.items.length

/-- `SizedCache.PortionFilled`: 0 when `maxSize` is 0 (defensive guard),
otherwise `currentSize / maxSize` as an exact rational. -/
def sizedPortionFilled (c : SizedCache K V) : ℚ :=
  if c.maxSize = 0 then 0 else (c.currentSize : ℚ) / (c.maxSize : ℚ)

/-- Applying a sequence of `Put` calls in order. -/
def sizedPuts (sizeFn : K → V → Int) (c : SizedCache K V) (ops : List (K × V)) :
    SizedCache K V :=
  ops.foldl (fun c p => sizedPut sizeFn c p.1 p.2) c

/-! ## Sharded byte cache (package bytecache, src/unnamed/part_002) -/

/-- A Go byte slice's contents: a list of byte values. -/
abbrev Bytes := List Nat

/-- `numShards = 256`. -/
def numShards : Nat := 256

/-- `shardMask = numShards - 1`. -/
def shardMask : Nat := numShards - 1

/-- A `byteEntry`: interned key string, copied value, recorded size.  The
`prev`/`next` intrusive links live in the position of the entry inside its
shard's `items` list. -/
structure ByteEntry where
  key : Bytes
  value : Bytes
  size : Int
  deriving DecidableEq, Repr

/-- Predicate locating the entry owned by `key` (the `s.items[k]` lookup). -/
def bkeyIs (key : Bytes) : ByteEntry → Bool := fun e => decide (e.key = key)

/-- A `byteShard`: its byte budget `maxSize`, running `currentSize`, and the
entries in recency order (front = `head` = MRU, last = `tail` = LRU). -/
structure ByteShard where
  maxSize : Int
  currentSize : Int
  items : List ByteEntry
  deriving DecidableEq, Repr

/-- The shard a collection starts from: empty items, zero usage. -/
def emptyShard (maxSize : Int) : ByteShard :=
  { maxSize := maxSize, currentSize := 0, items := [] }

/-- Sum of the recorded sizes of a shard's entries. -/
def bsumSizes (items : List ByteEntry) : Int :=
  (items.map (·.size)).sum

/-- The rolling hash of `Cache.shard`: a `uint8` accumulator XOR-folded over
the key's bytes (`h ^= b`); the `% 256` makes the 8-bit truncation explicit
(for byte values `< 256` the XOR never leaves the 8-bit range). -/
def shardHash (key : Bytes) : Nat :=
  key.foldl (fun h b => (h ^^^ b) % 256) 0

/-- The shard index selected by `Cache.shard`: `h & shardMask`. -/
def shardIdx (key : Bytes) : Nat :=
  shardHash key &&& shardMask

/-- The eviction loop of `Cache.Set`, working on the reversed recency list
(LRU entry first, so unlinking the Go list's `tail` = removing the head
here): while the new entry would not fit (`currentSize + entrySize >
maxSize`) and a tail exists, unlink the tail, subtracting its size. -/
def shardEvictRev (maxSize entrySize : Int) :
    Int → List ByteEntry → Int × List ByteEntry
  | cur, rev =>
    if cur + entrySize > maxSize then
      match rev with
      | [] => (cur, [])
      | e :: rest => shardEvictRev maxSize entrySize (cur - e.size) rest
    else (cur, rev)

/-- The eviction loop of `Cache.Set` on the MRU-first recency list. -/
def shardEvictLoop (maxSize entrySize : Int) (cur : Int) (items : List ByteEntry) :
    Int × List ByteEntry :=
  let r := shardEvictRev maxSize entrySize cur items.reverse
  (r.1, r.2.reverse)

/-- The shard-level body of `Cache.Set` (after the value has been copied):
oversized entries are dropped; an existing key is updated in place (size
delta applied) and moved to the front — with no eviction; a new key first
runs the eviction loop, then is pushed to the front. -/
def shardSet (s : ByteShard) (key value : Bytes) : ByteShard :=
  let entrySize : Int := (key.length : Int) + (value.length : Int)
  if entrySize > s.maxSize then
    s
  else
    match lookupBy (bkeyIs key) s.items with
    | some old =>
        { s with currentSize := s.currentSize - old.size + entrySize,
                 items := ⟨key, value, entrySize⟩ :: erasePBy (bkeyIs key) s.items }
    | none =>
        let (cur2, items2) := shardEvictLoop s.maxSize entrySize s.currentSize s.items
        { s with currentSize := cur2 + entrySize,
                 items := ⟨key, value, entrySize⟩ :: items2 }

/-- The shard-level body of `Cache.Del`. -/
def shardDel (s : ByteShard) (key : Bytes) : ByteShard :=
  match lookupBy (bkeyIs key) s.items with
  | some e => { s with currentSize := s.currentSize - e.size,
                       items := erasePBy (bkeyIs key) s.items }
  | none => s

/-- The shard-level `moveToFront` applied on a `Get`/`HasGet` hit. -/
def shardMoveToFront (s : ByteShard) (key : Bytes) : ByteShard :=
  match lookupBy (bkeyIs key) s.items with
  | some e => { s with items := e :: erasePBy (bkeyIs key) s.items }
  | none => s

/-- State of the `bytecache.Cache`: the 256 shards (a list of length
`numShards`), the normalized total budget and the three cumulative
counters.  The Go counters are `uint64`; wraparound at `2^64` is not
reachable by the finite call sequences considered here, so they are
plain naturals. -/
structure ByteCache where
  shards : List ByteShard
  maxBytes : Int
  getCalls : Nat
  setCalls : Nat
  misses : Nat
  deriving DecidableEq, Repr

/-- `bytecache.New`: a non-positive `maxBytes` is normalized to 1, each
shard's budget is `maxBytes / numShards`, floored to a minimum of 1. -/
def bytecacheNew (maxBytes : Int) : ByteCache :=
  let m := if maxBytes ≤ 0 then 1 else maxBytes
  let perShard0 := m / (numShards : Int)
  let perShard := if perShard0 < 1 then 1 else perShard0
  { shards := List.replicate numShards (emptyShard perShard),
    maxBytes := m, getCalls := 0, setCalls := 0, misses := 0 }

/-- `Cache.Set`: bump `setCalls`, route to the key's shard, run the shard
body (the input value is copied in Go; lists are immutable here). -/
def cacheSet (c : ByteCache) (key value : Bytes) : ByteCache :=
  let i := shardIdx key
  { c with setCalls := c.setCalls + 1,
           shards := c.shards.set i (shardSet (c.shards.getD i (emptyShard 0)) key value) }

/-- The result a Go `append(dst[:0], val...)` / `append([]byte(nil), val...)`
copy produces, as seen by the caller: with a nil `dst` and an empty `val`,
Go's append returns nil; otherwise the contents are those of `val`. -/
def goAppendCopy (dst : Option Bytes) (val : Bytes) : Option Bytes :=
  match dst with
  | none => if val = [] then none else some val
  | some _ => some val

/-- The value a miss returns: nil for a nil `dst`, `dst[:0]` otherwise. -/
def goMissValue (dst : Option Bytes) : Option Bytes :=
  match dst with
  | none => none
  | some _ => some []

/-- `Cache.Get`: bump `getCalls`; on a hit move the entry to the front of
its shard and return a copy of the value; on a miss bump `misses` and
return the miss shape for `dst`. -/
def cacheGet (c : ByteCache) (dst : Option Bytes) (key : Bytes) :
    Option Bytes × ByteCache :=
  let c1 := { c with getCalls := c.getCalls + 1 }
  let i := shardIdx key
  let s := c1.shards.getD i (emptyShard 0)
  match lookupBy (bkeyIs key) s.items with
  | some e =>
      (goAppendCopy dst e.value,
       { c1 with shards := c1.shards.set i (shardMoveToFront s key) })
  | none =>
      (goMissValue dst, { c1 with misses := c1.misses + 1 })

/-- `Cache.HasGet`: like `Get` but also returning the found flag. -/
def cacheHasGet (c : ByteCache) (dst : Option Bytes) (key : Bytes) :
    (Option Bytes × Bool) × ByteCache :=
  let c1 := { c with getCalls := c.getCalls + 1 }
  let i := shardIdx key
  let s := c1.shards.getD i (emptyShard 0)
  match lookupBy (bkeyIs key) s.items with
  | some e =>
      ((goAppendCopy dst e.value, true),
       { c1 with shards := c1.shards.set i (shardMoveToFront s key) })
  | none =>
      ((goMissValue dst, false), { c1 with misses := c1.misses + 1 })

/-- `Cache.Has`: a read-only membership test in the key's shard. -/
def cacheHas (c : ByteCache) (key : Bytes) : Bool :=
  (lookupBy (bkeyIs key) (c.shards.getD (shardIdx key) (emptyShard 0)).items).isSome

/-- `Cache.Del`: route to the key's shard and delete there. -/
def cacheDel (c : ByteCache) (key : Bytes) : ByteCache :=
  let i := shardIdx key
  { c with shards := c.shards.set i (shardDel (c.shards.getD i (emptyShard 0)) key) }

/-- Applying a sequence of `Set` calls in order. -/
def cacheSets (c : ByteCache) (ops : List (Bytes × Bytes)) : ByteCache :=
  ops.foldl (fun c p => cacheSet c p.1 p.2) c

/-! ## Eviction-callback LRU variant (src/lru/cache.go over `container`) -/

/-- Modelled from the spec: the engine behind src/lru/cache.go is
`container.NewLRUCacheWithOnEvict` from the external `container` package,
whose code is not under src/.  Per spec §4.1/§4.3 it is the same
count-bounded recency store: capacity normalized to at least 1, `Put` of an
existing key updates in place and moves it to the front with no callback,
`Put` of a new key at capacity removes the tail entry, invoking the
eviction callback exactly once per capacity-triggered removal, `Delete`
and `Clear` never invoke the callback.  Operations return the list of
callback invocations (key, value) they perform, in order. -/
structure CbCache (K V : Type) where
  capacity : Int
  order : List (K × V)
  deriving DecidableEq, Repr

/-- Modelled from the spec: `NewCacheWithOnEvict` (src/lru/cache.go)
normalizes a non-positive size to 1 and starts empty. -/
def cbNew (K V : Type) (size : Int) : CbCache K V :=
  { capacity := if size ≤ 0 then 1 else size, order := [] }

/-- Modelled from the spec: `Put` on the callback variant.  Second
component: the callback invocations this call performs (the capacity
eviction of the tail, when one happens). -/
def cbPut (c : CbCache K V) (k : K) (v : V) : CbCache K V × List (K × V) :=
  match lookupBy (keyIs k) c.order with
  | some _ => ({ c with order := (k, v) :: erasePBy (keyIs k) c.order }, [])
  | none =>
      if (c.order.length : Int) ≥ c.capacity then
        match c.order.getLast? with
        | some tl => ({ c with order := (k, v) :: c.order.dropLast }, [tl])
        | none => ({ c with order := [(k, v)] }, [])
      else ({ c with order := (k, v) :: c.order }, [])

/-- Modelled from the spec: `Evict` (= `Delete`) removes the key without
invoking the callback. -/
def cbEvict (c : CbCache K V) (k : K) : CbCache K V × List (K × V) :=
  ({ c with order := erasePBy (keyIs k) c.order }, [])

/-- `Flush` (= `Clear`, src/lru/cache.go): replaces the container cache by
a fresh one of the same capacity; no callback is invoked. -/
def cbFlush (c : CbCache K V) : CbCache K V × List (K × V) :=
  ({ capacity := c.capacity, order := [] }, [])

/-- `Len` of the callback variant. -/
def cbLen (c : CbCache K V) : Nat := c.order.length

/-- `PortionFilled` (src/lru/cache.go): `len / capacity`, 0 when the
capacity is 0 (defensive guard), as an exact rational. -/
def cbPortionFilled (c : CbCache K V) : ℚ :=
  if (c.capacity : ℚ) = 0 then 0 else (c.order.length : ℚ) / (c.capacity : ℚ)

/-! ## Helper lemmas about the list operations -/

theorem erasePBy_length {α : Type} (p : α → Bool) :
    ∀ {l : List α} {a : α}, lookupBy p l = some a →
      (erasePBy p l).length + 1 = l.length := by
  intro l
  induction l with
  | nil => intro a h; simp [lookupBy] at h
  | cons b t ih =>
      intro a h
      by_cases hb : p b
      · simp [erasePBy, hb]
      · simp only [lookupBy, if_neg hb] at h
        simp [erasePBy, hb, ih h]

theorem erasePBy_sum_map {α : Type} (p : α → Bool) (f : α → Int) :
    ∀ {l : List α} {a : α}, lookupBy p l = some a →
      ((erasePBy p l).map f).sum = (l.map f).sum - f a := by
  intro l
  induction l with
  | nil => intro a h; simp [lookupBy] at h
  | cons b t ih =>
      intro a h
      by_cases hb : p b
      · simp only [lookupBy, if_pos hb, Option.some.injEq] at h
        subst h
        simp [erasePBy, hb]
      · simp only [lookupBy, if_neg hb] at h
        simp only [erasePBy, if_neg hb, List.map_cons, List.sum_cons, ih h]
        ring

theorem sizedEvictRev_cons {K V : Type} (ms es cur : Int) (e : SizedEntry K V)
    (rest : List (SizedEntry K V)) :
    sizedEvictRev ms es cur (e :: rest) =
      if cur > ms - es then sizedEvictRev ms es (cur - e.size) rest
      else (cur, e :: rest) := by
  rw [sizedEvictRev.eq_def]

theorem sizedEvictLoop_nil {K V : Type} (ms es cur : Int) :
    sizedEvictLoop (K := K) (V := V) ms es cur [] = (cur, []) := by
  rw [sizedEvictLoop]
  simp only [List.reverse_nil]
  rw [sizedEvictRev.eq_def]
  by_cases h : cur > ms - es <;> simp [h]

theorem sizedEvictLoop_concat {K V : Type} (ms es cur : Int)
    (xs : List (SizedEntry K V)) (x : SizedEntry K V) :
    sizedEvictLoop ms es cur (xs ++ [x]) =
      if cur > ms - es then sizedEvictLoop ms es (cur - x.size) xs
      else (cur, xs ++ [x]) := by
  by_cases hc : cur > ms - es
  · rw [if_pos hc]
    simp only [sizedEvictLoop, List.reverse_append, List.reverse_cons, List.reverse_nil,
      List.nil_append, List.singleton_append]
    rw [sizedEvictRev_cons, if_pos hc]
  · rw [if_neg hc]
    simp only [sizedEvictLoop, List.reverse_append, List.reverse_cons, List.reverse_nil,
      List.nil_append, List.singleton_append]
    rw [sizedEvictRev_cons, if_neg hc]
    simp

theorem sizedEvictLoop_spec {K V : Type} (ms es : Int)
    (items : List (SizedEntry K V)) :
    ∀ cur : Int, cur = sumSizes items →
      (sizedEvictLoop ms es cur items).1 = sumSizes (sizedEvictLoop ms es cur items).2 ∧
      ((sizedEvictLoop ms es cur items).1 ≤ ms - es ∨
        (sizedEvictLoop ms es cur items).2 = []) := by
  induction items using List.reverseRecOn with
  | nil =>
      intro cur hc
      rw [sizedEvictLoop_nil]
      exact ⟨by simpa [sumSizes] using hc, Or.inr rfl⟩
  | append_singleton xs x ih =>
      intro cur hc
      have hsum : sumSizes (xs ++ [x]) = sumSizes xs + x.size := by
        simp [sumSizes]
      rw [sizedEvictLoop_concat]
      by_cases hcond : cur > ms - es
      · rw [if_pos hcond]
        exact ih (cur - x.size) (by omega)
      · rw [if_neg hcond]
        exact ⟨hc, Or.inl (by omega)⟩

theorem shardEvictRev_cons (ms es cur : Int) (e : ByteEntry) (rest : List ByteEntry) :
    shardEvictRev ms es cur (e :: rest) =
      if cur + es > ms then shardEvictRev ms es (cur - e.size) rest
      else (cur, e :: rest) := by
  rw [shardEvictRev.eq_def]

theorem shardEvictLoop_nil (ms es cur : Int) :
    shardEvictLoop ms es cur [] = (cur, []) := by
  rw [shardEvictLoop]
  simp only [List.reverse_nil]
  rw [shardEvictRev.eq_def]
  by_cases h : cur + es > ms <;> simp [h]

theorem shardEvictLoop_concat (ms es cur : Int)
    (xs : List ByteEntry) (x : ByteEntry) :
    shardEvictLoop ms es cur (xs ++ [x]) =
      if cur + es > ms then shardEvictLoop ms es (cur - x.size) xs
      else (cur, xs ++ [x]) := by
  by_cases hc : cur + es > ms
  · rw [if_pos hc]
    simp only [shardEvictLoop, List.reverse_append, List.reverse_cons, List.reverse_nil,
      List.nil_append, List.singleton_append]
    rw [shardEvictRev_cons, if_pos hc]
  · rw [if_neg hc]
    simp only [shardEvictLoop, List.reverse_append, List.reverse_cons, List.reverse_nil,
      List.nil_append, List.singleton_append]
    rw [shardEvictRev_cons, if_neg hc]
    simp

theorem shardEvictLoop_spec (ms es : Int) (items : List ByteEntry) :
    ∀ cur : Int, cur = bsumSizes items →
      (shardEvictLoop ms es cur items).1 = bsumSizes (shardEvictLoop ms es cur items).2 ∧
      ((shardEvictLoop ms es cur items).1 + es ≤ ms ∨
        (shardEvictLoop ms es cur items).2 = []) := by
  induction items using List.reverseRecOn with
  | nil =>
      intro cur hc
      rw [shardEvictLoop_nil]
      exact ⟨by simpa [bsumSizes] using hc, Or.inr rfl⟩
  | append_singleton xs x ih =>
      intro cur hc
      have hsum : bsumSizes (xs ++ [x]) = bsumSizes xs + x.size := by
        simp [bsumSizes]
      rw [shardEvictLoop_concat]
      by_cases hcond : cur + es > ms
      · rw [if_pos hcond]
        exact ih (cur - x.size) (by omega)
      · rw [if_neg hcond]
        exact ⟨hc, Or.inl (by omega)⟩

/-! ## Invariant preservation -/

theorem lruPut_inv (c : LruCache K V) (k : K) (v : V)
    (h1 : 1 ≤ c.size) (h2 : (c.order.length : Int) ≤ c.size) :
    (lruPut c k v).size = c.size ∧
    (((lruPut c k v).order.length : Int) ≤ c.size) := by
  unfold lruPut
  cases hfind : lookupBy (keyIs k) c.order with
  | some e =>
      have hlen := erasePBy_length (keyIs k) hfind
      refine ⟨rfl, ?_⟩
      simp only [List.length_cons]
      push_cast
      omega
  | none =>
      by_cases hcap : (c.order.length : Int) ≥ c.size
      · simp only [if_pos hcap]
        refine ⟨by simp, ?_⟩
        simp only [List.length_cons, List.length_dropLast]
        push_cast
        omega
      · simp only [if_neg hcap]
        refine ⟨by simp, ?_⟩
        simp only [List.length_cons]
        push_cast
        omega

theorem lruPuts_inv (ops : List (K × V)) :
    ∀ c : LruCache K V, 1 ≤ c.size → (c.order.length : Int) ≤ c.size →
      1 ≤ (lruPuts c ops).size ∧ (lruPuts c ops).size = c.size ∧
      ((lruPuts c ops).order.length : Int) ≤ (lruPuts c ops).size := by
  induction ops with
  | nil => intro c h1 h2; exact ⟨h1, rfl, h2⟩
  | cons p t ih =>
      intro c h1 h2
      have hp := lruPut_inv c p.1 p.2 h1 h2
      have := ih (lruPut c p.1 p.2) (hp.1 ▸ h1) (hp.1 ▸ hp.2)
      exact ⟨this.1, this.2.1.trans hp.1, this.2.2⟩

theorem sizedPut_inv (szf : K → V → Int) (c : SizedCache K V) (k : K) (v : V)
    (hpos : 0 ≤ c.maxSize)
    (hsum : c.currentSize = sumSizes c.items)
    (hb : c.currentSize ≤ c.maxSize) :
    (sizedPut szf c k v).maxSize = c.maxSize ∧
    (sizedPut szf c k v).currentSize = sumSizes (sizedPut szf c k v).items ∧
    (sizedPut szf c k v).currentSize ≤ (sizedPut szf c k v).maxSize := by
  unfold sizedPut
  by_cases hov : szf k v > c.maxSize
  · simp only [if_pos hov]
    exact ⟨trivial, by simp [sumSizes], by simpa using hpos⟩
  · simp only [if_neg hov]
    cases hfind : lookupBy (entryKeyIs k) c.items with
    | some old =>
        simp only
        have hsum1 : c.currentSize - old.size = sumSizes (erasePBy (entryKeyIs k) c.items) := by
          have h2 : ((erasePBy (entryKeyIs k) c.items).map (·.size)).sum =
              (c.items.map (·.size)).sum - old.size :=
            erasePBy_sum_map (entryKeyIs k) (·.size) hfind
          simp only [sumSizes] at hsum ⊢
          omega
        rcases hE : sizedEvictLoop c.maxSize (szf k v) (c.currentSize - old.size)
            (erasePBy (entryKeyIs k) c.items) with ⟨cur2, items2⟩
        have hspec := sizedEvictLoop_spec c.maxSize (szf k v)
          (erasePBy (entryKeyIs k) c.items) (c.currentSize - old.size) hsum1
        rw [hE] at hspec
        simp only at hspec
        refine ⟨by simp, ?_, ?_⟩
        · simp only [sumSizes, List.map_cons, List.sum_cons]
          simp only [sumSizes] at hspec
          omega
        · rcases hspec.2 with h | h
          · omega
          · subst h
            simp only [sumSizes, List.map_nil, List.sum_nil] at hspec
            omega
    | none =>
        simp only
        rcases hE : sizedEvictLoop c.maxSize (szf k v) c.currentSize c.items with ⟨cur2, items2⟩
        have hspec := sizedEvictLoop_spec c.maxSize (szf k v) c.items c.currentSize hsum
        rw [hE] at hspec
        simp only at hspec
        refine ⟨by simp, ?_, ?_⟩
        · simp only [sumSizes, List.map_cons, List.sum_cons]
          simp only [sumSizes] at hspec
          omega
        · rcases hspec.2 with h | h
          · omega
          · subst h
            simp only [sumSizes, List.map_nil, List.sum_nil] at hspec
            omega

theorem sizedPuts_inv (szf : K → V → Int) (ops : List (K × V)) :
    ∀ c : SizedCache K V, 0 ≤ c.maxSize → c.currentSize = sumSizes c.items →
      c.currentSize ≤ c.maxSize →
      (sizedPuts szf c ops).maxSize = c.maxSize ∧
      (sizedPuts szf c ops).currentSize = sumSizes (sizedPuts szf c ops).items ∧
      (sizedPuts szf c ops).currentSize ≤ (sizedPuts szf c ops).maxSize := by
  induction ops with
  | nil => intro c h0 h1 h2; exact ⟨rfl, h1, h2⟩
  | cons p t ih =>
      intro c h0 h1 h2
      have hp := sizedPut_inv szf c p.1 p.2 h0 h1 h2
      have := ih (sizedPut szf c p.1 p.2) (hp.1 ▸ h0) hp.2.1 (hp.1 ▸ hp.2.2)
      exact ⟨this.1.trans hp.1, this.2.1, this.2.2⟩

theorem shardSet_inv_of_absent (s : ByteShard) (key value : Bytes)
    (hsum : s.currentSize = bsumSizes s.items)
    (hb : s.currentSize ≤ s.maxSize)
    (habs : lookupBy (bkeyIs key) s.items = none) :
    (shardSet s key value).maxSize = s.maxSize ∧
    (shardSet s key value).currentSize = bsumSizes (shardSet s key value).items ∧
    (shardSet s key value).currentSize ≤ (shardSet s key value).maxSize := by
  unfold shardSet
  by_cases hov : (key.length : Int) + (value.length : Int) > s.maxSize
  · simp only [if_pos hov]
    exact ⟨trivial, hsum, hb⟩
  · simp only [if_neg hov, habs]
    rcases hE : shardEvictLoop s.maxSize ((key.length : Int) + (value.length : Int))
        s.currentSize s.items with ⟨cur2, items2⟩
    have hspec := shardEvictLoop_spec s.maxSize ((key.length : Int) + (value.length : Int))
      s.items s.currentSize hsum
    rw [hE] at hspec
    simp only at hspec
    refine ⟨by simp, ?_, ?_⟩
    · simp only [bsumSizes, List.map_cons, List.sum_cons]
      simp only [bsumSizes] at hspec
      omega
    · rcases hspec.2 with h | h
      · omega
      · subst h
        simp only [bsumSizes, List.map_nil, List.sum_nil] at hspec
        omega

/-! ## Claim theorems -/


/-- C5: after `Flush()` the cache has `Len() == 0` and `PortionFilled() == 0`
regardless of prior state, and flushing twice yields exactly the state of
flushing once, for the count-bounded and byte-bounded stores. -/
theorem claim_flush_idempotent :
    (∀ (K V : Type) (c : LruCache K V),
        lruLen (lruFlush c) = 0 ∧ lruPortionFilled (lruFlush c) = 0 ∧
        lruFlush (lruFlush c) = lruFlush c)
  ∧ (∀ (K V : Type) (c : SizedCache K V),
        sizedLen (sizedFlush c) = 0 ∧ sizedPortionFilled (sizedFlush c) = 0 ∧
        sizedFlush (sizedFlush c) = sizedFlush c) := by
  refine ⟨fun K V c => ⟨rfl, ?_, rfl⟩, fun K V c => ⟨rfl, ?_, rfl⟩⟩
  · simp [lruPortionFilled, lruFlush]
  · simp [sizedPortionFilled, sizedFlush]

/-- C8: construction normalizes any non-positive configured capacity to
exactly 1 (never rejected), and in the sharded byte cache each shard's
budget is the total budget divided by the shard count, floored to a
minimum of 1. -/
theorem claim_construction_normalization :
    (∀ (K V : Type) (s : Int),
        1 ≤ (lruNew K V s).size ∧ (s ≤ 0 → (lruNew K V s).size = 1))
  ∧ (∀ (K V : Type) (s : Int),
        1 ≤ (sizedNew K V s).maxSize ∧ (s ≤ 0 → (sizedNew K V s).maxSize = 1))
  ∧ (∀ m : Int,
        1 ≤ (bytecacheNew m).maxBytes ∧ (m ≤ 0 → (bytecacheNew m).maxBytes = 1) ∧
        (bytecacheNew m).shards.length = numShards ∧
        ∀ sh ∈ (bytecacheNew m).shards,
          1 ≤ sh.maxSize ∧
          sh.maxSize = max 1 ((bytecacheNew m).maxBytes / (numShards : Int))) := by
  refine ⟨fun K V s => ⟨?_, fun h => ?_⟩, fun K V s => ⟨?_, fun h => ?_⟩,
    fun m => ⟨?_, fun h => ?_, ?_, fun sh hsh => ?_⟩⟩
  · simp only [lruNew]; split <;> omega
  · simp [lruNew, if_pos h]
  · simp only [sizedNew]; split <;> omega
  · simp [sizedNew, if_pos h]
  · simp only [bytecacheNew]; split <;> omega
  · simp [bytecacheNew, if_pos h]
  · simp [bytecacheNew]
  · have hsh' := List.eq_of_mem_replicate (by simpa [bytecacheNew] using hsh)
    subst hsh'
    simp only [bytecacheNew, emptyShard]
    constructor
    · split <;> omega
    · split <;> omega

/-- C2 counterexample: in `SizedCache` (a byte-bounded store) a `Put` whose
computed size exceeds the budget is not a no-op leaving existing entries
unchanged: with budget 5 and one resident entry, an oversized (size 6) put
erases the resident entry (the store is flushed). -/
theorem claim_oversized_noop_cex :
    ((sizedPut (fun _ v => (v.length : Int)) (sizedNew Nat (List Nat) 5) 0 [1, 2]).items ≠ [])
  ∧ ((sizedPut (fun _ v => (v.length : Int))
        (sizedPut (fun _ v => (v.length : Int)) (sizedNew Nat (List Nat) 5) 0 [1, 2])
        1 [9, 9, 9, 9, 9, 9]).items = []) := by
  decide

/-- C2 amended: in the sharded byte cache an oversized `Set` is a no-op
leaving the shard exactly unchanged (no entry created); in `SizedCache` an
oversized `Put` instead flushes the entire store — it also creates no
entry, but it does not leave existing entries untouched. -/
theorem claim_oversized_policy :
    (∀ (s : ByteShard) (key value : Bytes),
        (key.length : Int) + (value.length : Int) > s.maxSize →
        shardSet s key value = s)
  ∧ (∀ (K V : Type) [DecidableEq K] (szf : K → V → Int) (c : SizedCache K V)
        (k : K) (v : V),
        szf k v > c.maxSize → sizedPut szf c k v = sizedFlush c) := by
  constructor
  · intro s key value h
    simp only [shardSet]
    rw [if_pos h]
  · intro K V _ szf c k v h
    simp only [sizedPut, sizedFlush]
    rw [if_pos h]

theorem claim_oversized_policy_witness :
    shardSet (emptyShard 1) [1] [2, 3] = emptyShard 1
  ∧ sizedPut (fun _ v => (v.length : Int)) (sizedNew Nat (List Nat) 5) 0
      [9, 9, 9, 9, 9, 9] = sizedFlush (sizedNew Nat (List Nat) 5) :=
  ⟨claim_oversized_policy.1 (emptyShard 1) [1] [2, 3] (by decide),
   claim_oversized_policy.2 Nat (List Nat) (fun _ v => (v.length : Int))
     (sizedNew Nat (List Nat) 5) 0 [9, 9, 9, 9, 9, 9] (by decide)⟩

/-- C3: `Put(k, v)` immediately followed by `Get(k)` returns `(v, true)`,
provided the Put left `k` resident: unconditionally for the count-bounded
cache, and whenever the computed size fits the budget for the byte-bounded
cache (otherwise the put flushes and `k` is not resident). -/
theorem claim_put_get_roundtrip :
    (∀ (K V : Type) [DecidableEq K] (c : LruCache K V) (k : K) (v : V),
        (lruGet (lruPut c k v) k).1 = some v)
  ∧ (∀ (K V : Type) [DecidableEq K] (szf : K → V → Int) (c : SizedCache K V)
        (k : K) (v : V),
        szf k v ≤ c.maxSize → (sizedGet (sizedPut szf c k v) k).1 = some v) := by
  constructor
  · intro K V _ c k v
    cases hfind : lookupBy (keyIs k) c.order <;>
      simp [lruPut, hfind, lruGet, lookupBy, keyIs]
  · intro K V _ szf c k v h
    have hov : ¬ szf k v > c.maxSize := not_lt.mpr h
    cases hfind : lookupBy (entryKeyIs k) c.items <;>
      simp [sizedPut, hov, hfind, sizedGet, lookupBy, entryKeyIs]

theorem claim_put_get_roundtrip_witness :
    (lruGet (lruPut (lruNew Nat Nat 2) 5 7) 5).1 = some 7
  ∧ (sizedGet (sizedPut (fun _ (v : Nat) => (v : Int)) (sizedNew Nat Nat 9) 4 3) 4).1 = some 3 :=
  ⟨claim_put_get_roundtrip.1 Nat Nat (lruNew Nat Nat 2) 5 7,
   claim_put_get_roundtrip.2 Nat Nat (fun _ (v : Nat) => (v : Int)) (sizedNew Nat Nat 9) 4 3
     (by decide)⟩

theorem claim_construction_normalization_witness :
    (lruNew Nat Nat (-5)).size = 1
  ∧ (sizedNew Nat Nat 0).maxSize = 1
  ∧ (bytecacheNew (-7)).maxBytes = 1
  ∧ (bytecacheNew 2560).shards.length = numShards :=
  ⟨(claim_construction_normalization.1 Nat Nat (-5)).2 (by decide),
   (claim_construction_normalization.2.1 Nat Nat 0).2 (by decide),
   (claim_construction_normalization.2.2 (-7)).2.1 (by decide),
   (claim_construction_normalization.2.2 2560).2.2.1⟩

/-- C1 counterexample: in the sharded byte cache, a `Set` that replaces an
existing key with a larger value exceeds the per-shard budget: starting
from `New(2560)` (per-shard budget 10), setting keys `[1,2]` and `[3,0]`
(both routed to shard 3, sizes 5 each) and then re-setting `[1,2]` with a
one-byte-larger value leaves shard 3 with summed entry sizes 11 > 10. -/
theorem claim_capacity_bound_cex :
    ((cacheSets (bytecacheNew 2560)
        [([1, 2], [7, 7, 7]), ([3, 0], [8, 8, 8]), ([1, 2], [7, 7, 7, 7])]).shards.getD 3
        (emptyShard 0)).maxSize <
      bsumSizes ((cacheSets (bytecacheNew 2560)
        [([1, 2], [7, 7, 7]), ([3, 0], [8, 8, 8]), ([1, 2], [7, 7, 7, 7])]).shards.getD 3
        (emptyShard 0)).items := by
  decide

/-- C1 amended: the capacity bound holds for the count-bounded cache
(`Len() ≤ size` after any sequence of puts) and for `SizedCache` (summed
entry sizes ≤ budget after any sequence of puts, including replacements);
in the sharded byte cache it is preserved by `Set` calls for keys that are
absent from their shard, but a `Set` replacing an existing key with a
larger value can push the shard's usage above its budget (no eviction runs
on the update path). -/
theorem claim_capacity_bound_amended :
    (∀ (K V : Type) [DecidableEq K] (s : Int) (ops : List (K × V)),
        ((lruPuts (lruNew K V s) ops).order.length : Int) ≤
          (lruPuts (lruNew K V s) ops).size)
  ∧ (∀ (K V : Type) [DecidableEq K] (szf : K → V → Int) (s : Int) (ops : List (K × V)),
        sumSizes (sizedPuts szf (sizedNew K V s) ops).items ≤
          (sizedPuts szf (sizedNew K V s) ops).maxSize)
  ∧ (∀ (s : ByteShard) (key value : Bytes),
        s.currentSize = bsumSizes s.items → s.currentSize ≤ s.maxSize →
        lookupBy (bkeyIs key) s.items = none →
        bsumSizes (shardSet s key value).items ≤ (shardSet s key value).maxSize) := by
  refine ⟨fun K V _ s ops => ?_, fun K V _ szf s ops => ?_, fun s key value h1 h2 h3 => ?_⟩
  · have h1 : 1 ≤ (lruNew K V s).size := by
      simp only [lruNew]; split <;> omega
    have h2 : ((lruNew K V s).order.length : Int) ≤ (lruNew K V s).size := by
      simp only [lruNew]; split <;> simp <;> omega
    exact (lruPuts_inv ops (lruNew K V s) h1 h2).2.2
  · have h0 : 0 ≤ (sizedNew K V s).maxSize := by
      simp only [sizedNew]; split <;> omega
    have h := sizedPuts_inv szf ops (sizedNew K V s) h0 rfl (by simp only [sizedNew]; split <;> omega)
    omega
  · have h := shardSet_inv_of_absent s key value h1 h2 h3
    omega

theorem claim_capacity_bound_amended_witness :
    (((lruPuts (lruNew Nat Nat 2) [(0, 0), (1, 1), (2, 2)]).order.length : Int) ≤
        (lruPuts (lruNew Nat Nat 2) [(0, 0), (1, 1), (2, 2)]).size)
  ∧ (sumSizes (sizedPuts (fun _ (v : Nat) => (v : Int)) (sizedNew Nat Nat 3)
        [(0, 2), (1, 2)]).items ≤
      (sizedPuts (fun _ (v : Nat) => (v : Int)) (sizedNew Nat Nat 3) [(0, 2), (1, 2)]).maxSize)
  ∧ bsumSizes (shardSet (emptyShard 10) [1] [7, 7]).items ≤
      (shardSet (emptyShard 10) [1] [7, 7]).maxSize :=
  ⟨claim_capacity_bound_amended.1 Nat Nat 2 [(0, 0), (1, 1), (2, 2)],
   claim_capacity_bound_amended.2.1 Nat Nat (fun _ (v : Nat) => (v : Int)) 3 [(0, 2), (1, 2)],
   claim_capacity_bound_amended.2.2 (emptyShard 10) [1] [7, 7] (by decide) (by decide)
     (by decide)⟩

/-- C4: on a count-bounded cache of capacity 3 starting empty, the sequence
Put(a), Put(b), Put(c), Get(a), Put(d) (keys pairwise distinct) evicts
exactly b: afterwards Get(b) misses while Get(a), Get(c), Get(d) hit with
their values, and Len() = 3. -/
theorem claim_recency_eviction (K V : Type) [DecidableEq K]
    (a b c d : K) (va vb vc vd : V)
    (hab : a ≠ b) (hac : a ≠ c) (had : a ≠ d)
    (hbc : b ≠ c) (hbd : b ≠ d) (hcd : c ≠ d) :
    (lruGet (lruPut ((lruGet (lruPuts (lruNew K V 3) [(a, va), (b, vb), (c, vc)]) a).2) d vd) b).1 = none
  ∧ (lruGet (lruPut ((lruGet (lruPuts (lruNew K V 3) [(a, va), (b, vb), (c, vc)]) a).2) d vd) a).1 = some va
  ∧ (lruGet (lruPut ((lruGet (lruPuts (lruNew K V 3) [(a, va), (b, vb), (c, vc)]) a).2) d vd) c).1 = some vc
  ∧ (lruGet (lruPut ((lruGet (lruPuts (lruNew K V 3) [(a, va), (b, vb), (c, vc)]) a).2) d vd) d).1 = some vd
  ∧ lruLen (lruPut ((lruGet (lruPuts (lruNew K V 3) [(a, va), (b, vb), (c, vc)]) a).2) d vd) = 3 := by
  refine ⟨?_, ?_, ?_, ?_, ?_⟩ <;>
    simp [lruPuts, lruPut, lruGet, lruNew, lruLen, lookupBy, erasePBy, keyIs, List.dropLast,
      hab, hac, had, hbc, hbd, hcd, Ne.symm hab, Ne.symm hac, Ne.symm had, Ne.symm hbc,
      Ne.symm hbd, Ne.symm hcd]

theorem claim_recency_eviction_witness :
    (lruGet (lruPut ((lruGet (lruPuts (lruNew Nat Nat 3) [(0, 10), (1, 11), (2, 12)]) 0).2) 3 13) 1).1 = none
  ∧ (lruGet (lruPut ((lruGet (lruPuts (lruNew Nat Nat 3) [(0, 10), (1, 11), (2, 12)]) 0).2) 3 13) 0).1 = some 10
  ∧ (lruGet (lruPut ((lruGet (lruPuts (lruNew Nat Nat 3) [(0, 10), (1, 11), (2, 12)]) 0).2) 3 13) 2).1 = some 12
  ∧ (lruGet (lruPut ((lruGet (lruPuts (lruNew Nat Nat 3) [(0, 10), (1, 11), (2, 12)]) 0).2) 3 13) 3).1 = some 13
  ∧ lruLen (lruPut ((lruGet (lruPuts (lruNew Nat Nat 3) [(0, 10), (1, 11), (2, 12)]) 0).2) 3 13) = 3 :=
  claim_recency_eviction Nat Nat 0 1 2 3 10 11 12 13 (by decide) (by decide) (by decide)
    (by decide) (by decide) (by decide)

/-- C6: with capacity 2 and an eviction callback attached, Put(x), Put(y),
Put(z) (keys pairwise distinct) invokes the callback exactly once, with key
x (the capacity-triggered tail removal); a subsequent Evict(y) and any
Flush() invoke the callback zero times. -/
theorem claim_callback_discipline (K V : Type) [DecidableEq K]
    (x y z : K) (vx vy vz : V)
    (hxy : x ≠ y) (hxz : x ≠ z) (hyz : y ≠ z) :
    (cbPut (cbNew K V 2) x vx).2 = []
  ∧ (cbPut (cbPut (cbNew K V 2) x vx).1 y vy).2 = []
  ∧ (cbPut (cbPut (cbPut (cbNew K V 2) x vx).1 y vy).1 z vz).2 = [(x, vx)]
  ∧ (cbEvict (cbPut (cbPut (cbPut (cbNew K V 2) x vx).1 y vy).1 z vz).1 y).2 = []
  ∧ (cbFlush (cbEvict (cbPut (cbPut (cbPut (cbNew K V 2) x vx).1 y vy).1 z vz).1 y).1).2 = [] := by
  refine ⟨?_, ?_, ?_, ?_, ?_⟩ <;>
    simp [cbNew, cbPut, cbEvict, cbFlush, lookupBy, keyIs, erasePBy, List.dropLast,
      List.getLast?, hxy, hxz, hyz, Ne.symm hxy, Ne.symm hxz, Ne.symm hyz]

theorem claim_callback_discipline_witness :
    (cbPut (cbNew Nat Nat 2) 0 100).2 = []
  ∧ (cbPut (cbPut (cbNew Nat Nat 2) 0 100).1 1 101).2 = []
  ∧ (cbPut (cbPut (cbPut (cbNew Nat Nat 2) 0 100).1 1 101).1 2 102).2 = [(0, 100)]
  ∧ (cbEvict (cbPut (cbPut (cbPut (cbNew Nat Nat 2) 0 100).1 1 101).1 2 102).1 1).2 = []
  ∧ (cbFlush (cbEvict (cbPut (cbPut (cbPut (cbNew Nat Nat 2) 0 100).1 1 101).1 2 102).1 1).1).2 = [] :=
  claim_callback_discipline Nat Nat 0 1 2 100 101 102 (by decide) (by decide) (by decide)

theorem getD_set_ne_aux {α : Type} (l : List α) (i j : Nat) (a d : α) (h : j ≠ i) :
    (l.set i a).getD j d = l.getD j d := by
  rw [List.getD_eq_getElem?_getD, List.getD_eq_getElem?_getD,
    List.getElem?_set_ne (Ne.symm h)]

/-- C7: shard selection is a deterministic pure function of the key's bytes
alone: the selected index `shardIdx key` is always below `numShards`, every
mutating operation (`Set`, `Get`, `HasGet`, `Del`) leaves all shards other
than the one at `shardIdx key` exactly unchanged in any state, and `Has`
reads exactly the shard at `shardIdx key`. -/
theorem claim_shard_routing :
    (∀ key : Bytes, shardIdx key < numShards)
  ∧ (∀ (c : ByteCache) (key value : Bytes) (dst : Option Bytes) (j : Nat),
        j ≠ shardIdx key →
        (cacheSet c key value).shards.getD j (emptyShard 0) =
            c.shards.getD j (emptyShard 0)
      ∧ (cacheGet c dst key).2.shards.getD j (emptyShard 0) =
            c.shards.getD j (emptyShard 0)
      ∧ (cacheHasGet c dst key).2.shards.getD j (emptyShard 0) =
            c.shards.getD j (emptyShard 0)
      ∧ (cacheDel c key).shards.getD j (emptyShard 0) =
            c.shards.getD j (emptyShard 0))
  ∧ (∀ (c : ByteCache) (key : Bytes),
        cacheHas c key =
          (lookupBy (bkeyIs key)
            ((c.shards.getD (shardIdx key) (emptyShard 0)).items)).isSome) := by
  refine ⟨fun key => ?_, fun c key value dst j hj => ⟨?_, ?_, ?_, ?_⟩, fun c key => rfl⟩
  · have h := Nat.and_le_right (n := shardHash key) (m := shardMask)
    simp only [shardIdx, shardMask, numShards] at h ⊢
    omega
  · simp only [cacheSet]
    exact getD_set_ne_aux _ _ _ _ _ hj
  · simp only [cacheGet]
    cases hfind : lookupBy (bkeyIs key)
        ((c.shards.getD (shardIdx key) (emptyShard 0)).items) <;>
      simp [hfind, getD_set_ne_aux _ _ _ _ _ hj, List.getElem?_set_ne (Ne.symm hj)]
  · simp only [cacheHasGet]
    cases hfind : lookupBy (bkeyIs key)
        ((c.shards.getD (shardIdx key) (emptyShard 0)).items) <;>
      simp [hfind, getD_set_ne_aux _ _ _ _ _ hj, List.getElem?_set_ne (Ne.symm hj)]
  · simp only [cacheDel]
    exact getD_set_ne_aux _ _ _ _ _ hj

theorem claim_shard_routing_witness :
    shardIdx [1, 2] < numShards
  ∧ (cacheSet (bytecacheNew 2560) [1, 2] [7]).shards.getD 0 (emptyShard 0) =
      (bytecacheNew 2560).shards.getD 0 (emptyShard 0) :=
  ⟨claim_shard_routing.1 [1, 2],
   (claim_shard_routing.2.1 (bytecacheNew 2560) [1, 2] [7] none 0 (by decide)).1⟩

/-- C10: a lookup of an absent key has the fixed miss shape and touches no
shard state: `Get(dst, key)` returns nil for a nil `dst` and `dst`
truncated to length 0 otherwise; `HasGet(dst, key)` returns that same value
with found=false; in both cases the shards are unchanged and only
`getCalls` and `misses` each increase by one. -/
theorem claim_miss_shape (c : ByteCache) (dst : Option Bytes) (key : Bytes)
    (habs : lookupBy (bkeyIs key)
        ((c.shards.getD (shardIdx key) (emptyShard 0)).items) = none) :
    cacheGet c dst key =
      (goMissValue dst,
        { c with getCalls := c.getCalls + 1, misses := c.misses + 1 })
  ∧ cacheHasGet c dst key =
      ((goMissValue dst, false),
        { c with getCalls := c.getCalls + 1, misses := c.misses + 1 })
  ∧ goMissValue (none : Option Bytes) = none
  ∧ (∀ d : Bytes, goMissValue (some d) = some []) := by
  refine ⟨?_, ?_, rfl, fun d => rfl⟩
  · simp only [cacheGet, habs]
  · simp only [cacheHasGet, habs]

theorem claim_miss_shape_witness :
    (cacheGet (bytecacheNew 100) (some [5]) [1]).1 = some [] := by
  have h := (claim_miss_shape (bytecacheNew 100) (some [5]) [1] (by decide)).1
  rw [h]
  rfl

/-- C9: `PortionFilled()` equals usage divided by budget, is exactly 0 for
an empty store, exactly 1 when usage equals budget, lies in [0, 1] whenever
usage is within the budget, and the variants carrying a defensive guard
(`SizedCache`, the wrapper of src/lru/cache.go) return 0 when the budget is
0 — a state never produced by construction, which normalizes budgets to at
least 1. -/
theorem claim_portion_filled :
    (∀ (K V : Type) (c : LruCache K V), 1 ≤ c.size →
        lruPortionFilled c = (c.order.length : ℚ) / (c.size : ℚ)
      ∧ (c.order = [] → lruPortionFilled c = 0)
      ∧ ((c.order.length : Int) = c.size → lruPortionFilled c = 1)
      ∧ ((c.order.length : Int) ≤ c.size →
          0 ≤ lruPortionFilled c ∧ lruPortionFilled c ≤ 1))
  ∧ (∀ (K V : Type) (c : SizedCache K V),
        (c.maxSize = 0 → sizedPortionFilled c = 0)
      ∧ (1 ≤ c.maxSize →
          sizedPortionFilled c = (c.currentSize : ℚ) / (c.maxSize : ℚ)
        ∧ (c.currentSize = 0 → sizedPortionFilled c = 0)
        ∧ (c.currentSize = c.maxSize → sizedPortionFilled c = 1)
        ∧ (0 ≤ c.currentSize → c.currentSize ≤ c.maxSize →
            0 ≤ sizedPortionFilled c ∧ sizedPortionFilled c ≤ 1)))
  ∧ (∀ (K V : Type) (c : CbCache K V),
        (c.capacity = 0 → cbPortionFilled c = 0)
      ∧ (1 ≤ c.capacity →
          cbPortionFilled c = (c.order.length : ℚ) / (c.capacity : ℚ)
        ∧ (c.order = [] → cbPortionFilled c = 0)
        ∧ ((c.order.length : Int) = c.capacity → cbPortionFilled c = 1)
        ∧ ((c.order.length : Int) ≤ c.capacity →
            0 ≤ cbPortionFilled c ∧ cbPortionFilled c ≤ 1))) := by
  refine ⟨fun K V c h1 => ?_, fun K V c => ⟨fun h0 => ?_, fun h1 => ?_⟩,
    fun K V c => ⟨fun h0 => ?_, fun h1 => ?_⟩⟩
  · have hpos : (0 : ℚ) < (c.size : ℚ) := by
      have : (0 : Int) < c.size := by omega
      exact_mod_cast this
    refine ⟨rfl, fun he => ?_, fun heq => ?_, fun hle => ⟨?_, ?_⟩⟩
    · simp [lruPortionFilled, he]
    · have hq : (c.order.length : ℚ) = (c.size : ℚ) := by exact_mod_cast heq
      rw [lruPortionFilled, hq, div_self (ne_of_gt hpos)]
    · exact div_nonneg (by positivity) (le_of_lt hpos)
    · exact (div_le_one hpos).mpr (by exact_mod_cast hle)
  · simp [sizedPortionFilled, h0]
  · have hne : c.maxSize ≠ 0 := by omega
    have hpos : (0 : ℚ) < (c.maxSize : ℚ) := by
      have : (0 : Int) < c.maxSize := by omega
      exact_mod_cast this
    refine ⟨by simp [sizedPortionFilled, hne], fun he => ?_, fun heq => ?_,
      fun hnn hle => ⟨?_, ?_⟩⟩
    · simp [sizedPortionFilled, hne, he]
    · have hq : (c.currentSize : ℚ) = (c.maxSize : ℚ) := by exact_mod_cast heq
      simp [sizedPortionFilled, hne, hq, div_self (ne_of_gt hpos)]
    · simp only [sizedPortionFilled, if_neg hne]
      exact div_nonneg (by exact_mod_cast hnn) (le_of_lt hpos)
    · simp only [sizedPortionFilled, if_neg hne]
      exact (div_le_one hpos).mpr (by exact_mod_cast hle)
  · have hq : ((c.capacity : ℚ)) = 0 := by exact_mod_cast h0
    simp [cbPortionFilled, hq]
  · have hne : ((c.capacity : ℚ)) ≠ 0 := by
      have : c.capacity ≠ 0 := by omega
      exact_mod_cast this
    have hpos : (0 : ℚ) < (c.capacity : ℚ) := by
      have : (0 : Int) < c.capacity := by omega
      exact_mod_cast this
    refine ⟨by simp [cbPortionFilled, hne], fun he => ?_, fun heq => ?_,
      fun hle => ⟨?_, ?_⟩⟩
    · simp [cbPortionFilled, hne, he]
    · have hq : (c.order.length : ℚ) = (c.capacity : ℚ) := by exact_mod_cast heq
      simp [cbPortionFilled, hne, hq, div_self (ne_of_gt hpos)]
    · simp only [cbPortionFilled, if_neg hne]
      exact div_nonneg (by positivity) (le_of_lt hpos)
    · simp only [cbPortionFilled, if_neg hne]
      exact (div_le_one hpos).mpr (by exact_mod_cast hle)

theorem claim_portion_filled_witness :
    lruPortionFilled ({ size := 3, order := [] } : LruCache Nat Nat) = 0
  ∧ sizedPortionFilled ({ maxSize := 0, currentSize := 0, items := [] } : SizedCache Nat Nat) = 0
  ∧ cbPortionFilled ({ capacity := 2, order := [(0, 0), (1, 1)] } : CbCache Nat Nat) = 1 :=
  ⟨(claim_portion_filled.1 Nat Nat _ (by decide)).2.1 rfl,
   (claim_portion_filled.2.1 Nat Nat _).1 rfl,
   ((claim_portion_filled.2.2 Nat Nat _).2 (by decide)).2.2.1 (by decide)⟩

end LuxCache
